import Mathlib

/-
Verification of the MC_in_terminal voxel engine against its design notes.

The Python sources are shallowly embedded:
  * `src/vector.py`   -> `MC.Vector`, `MC.Vector2`, arithmetic, `length`,
    `normalize`, `angles_to_vect` (real-valued operations live over ℝ,
    exact grid / game arithmetic over ℚ);
  * `src/world.py`    -> the block grid as a total function
    `Blocks = ℤ → ℤ → ℤ → Char` indexed `blocks z y x` exactly like the
    Python list-of-lists `blocks[z][y][x]` (every exercised access is
    in bounds, so the functional model agrees with the list model on
    all reachable reads and writes), plus `get_block`, `set_block`,
    `is_valid_position`, `is_empty`, `place_block`, `remove_block`;
  * `src/raycast.py`  -> `ray_outside`, `on_block_border`, and the three
    DDA loops as fuel-indexed recursions (`raytrace`, `get_current_block`,
    `get_current_block_pos`); the fuel counts executions of the stepping
    body, `none` meaning the loop would still be running;
  * `src/player.py`   -> `Player`, gravity / collision / movement / view
    as grid-threading functions; the float trigonometry of
    `angles_to_vect` is abstracted as a parameter `a2v` of the update
    pipeline, every theorem quantifying over it;
  * Python `int()` (truncation toward zero) -> `pyInt`;
    Python `round()` (round half to even)   -> `pyRound`.
-/

namespace MC

/-- 3D vector with `x`, `y`, `z` components (src/vector.py, class Vector). -/
structure Vector (α : Type) where
  x : α
  y : α
  z : α
deriving DecidableEq, Repr

/-- View angles (src/vector.py, class Vector2): `psi` pitch, `phi` yaw. -/
structure Vector2 (α : Type) where
  psi : α
  phi : α
deriving DecidableEq, Repr

instance {α : Type} [Add α] : Add (Vector α) where
  add v w := ⟨v.x + w.x, v.y + w.y, v.z + w.z⟩

instance {α : Type} [Sub α] : Sub (Vector α) where
  sub v w := ⟨v.x - w.x, v.y - w.y, v.z - w.z⟩

/-- Scalar multiplication `v * s` (src/vector.py, `Vector.__mul__`). -/
def Vector.scale {α : Type} [Mul α] (v : Vector α) (s : α) : Vector α :=
  ⟨v.x * s, v.y * s, v.z * s⟩

/-- Python `int()` applied to a rational: truncation toward zero. -/
def pyInt (q : ℚ) : ℤ :=
  if 0 ≤ q then ⌊q⌋ else ⌈q⌉

/-- Python 3 `round()` applied to a rational: round half to even. -/
def pyRound (q : ℚ) : ℤ :=
  if q - ⌊q⌋ < 1/2 then ⌊q⌋
  else if 1/2 < q - ⌊q⌋ then ⌊q⌋ + 1
  else if Even ⌊q⌋ then ⌊q⌋ else ⌊q⌋ + 1

-- Configuration constants (src/config.py).

/-- `Z_BLOCKS = 10` — world height. -/
def Z_BLOCKS : ℤ := 10

/-- `Y_BLOCKS = 20` — world depth. -/
def Y_BLOCKS : ℤ := 20

/-- `X_BLOCKS = 20` — world width. -/
def X_BLOCKS : ℤ := 20

/-- `EYE_HEIGHT = 1.5`. -/
def EYE_HEIGHT : ℚ := 3/2

/-- `VIEW_HEIGHT = 0.7` — vertical field of view. -/
def VIEW_HEIGHT : ℚ := 7/10

/-- `VIEW_WIDTH = 1.0` — horizontal field of view. -/
def VIEW_WIDTH : ℚ := 1

/-- `BLOCK_BORDER_SIZE = 0.05`. -/
def BLOCK_BORDER_SIZE : ℚ := 1/20

/-- `MOVE_SPEED = 0.30`. -/
def MOVE_SPEED : ℚ := 3/10

/-- `TILT_SPEED = 0.1`. -/
def TILT_SPEED : ℚ := 1/10

/-- `RAY_EPSILON = 0.01`. -/
def RAY_EPSILON : ℚ := 1/100

/-- `EMPTY_BLOCK = " "`. -/
def EMPTY_BLOCK : Char := ' '

/-- `GROUND_BLOCK = "@"`. -/
def GROUND_BLOCK : Char := '@'

/-- `BORDER_CHAR = "-"`. -/
def BORDER_CHAR : Char := '-'

-- World (src/world.py). The dense `blocks[z][y][x]` grid is modelled as a
-- total function; all reads and writes the program performs are in bounds.

/-- The block grid, indexed `blocks z y x` like the Python `blocks[z][y][x]`. -/
def Blocks : Type := ℤ → ℤ → ℤ → Char

/-- Point update of one grid cell (the effect of `self.blocks[z][y][x] = c`). -/
def setCell (b : Blocks) (z y x : ℤ) (c : Char) : Blocks :=
  fun z' y' x' => if z' = z ∧ y' = y ∧ x' = x then c else b z' y' x'

/-- `World.__init__`: the all-empty grid. -/
def emptyWorld : Blocks := fun _ _ _ => EMPTY_BLOCK

/-- `World.generate_ground(4)` applied to a fresh world: the bottom four
layers of every in-range column hold the ground block. -/
def groundWorld : Blocks := fun z y x =>
  if 0 ≤ z ∧ z < 4 ∧ 0 ≤ y ∧ y < Y_BLOCKS ∧ 0 ≤ x ∧ x < X_BLOCKS then
    GROUND_BLOCK
  else
    EMPTY_BLOCK

/-- `World.is_valid_position`. -/
def is_valid_position (x y z : ℤ) : Bool :=
  decide (0 ≤ x ∧ x < X_BLOCKS ∧ 0 ≤ y ∧ y < Y_BLOCKS ∧ 0 ≤ z ∧ z < Z_BLOCKS)

/-- `World.get_block`. -/
def get_block (b : Blocks) (x y z : ℤ) : Char :=
  if is_valid_position x y z then b z y x else EMPTY_BLOCK

/-- `World.set_block`. -/
def set_block (b : Blocks) (x y z : ℤ) (c : Char) : Blocks :=
  if is_valid_position x y z then setCell b z y x c else b

/-- `World.is_empty`. -/
def is_empty (b : Blocks) (x y z : ℤ) : Bool :=
  decide (get_block b x y z = EMPTY_BLOCK)

/-- `World.remove_block`; returns the updated grid and the success flag. -/
def remove_block (b : Blocks) (x y z : ℤ) : Blocks × Bool :=
  if is_valid_position x y z ∧ ¬ is_empty b x y z then
    (setCell b z y x EMPTY_BLOCK, true)
  else
    (b, false)

-- Raycaster (src/raycast.py). The three `while not self.ray_outside(pos)`
-- loops are embedded as fuel-indexed recursions: the fuel bounds the number
-- of executions of the stepping body, and `none` means the loop would still
-- be running after that many steps.

/-- `Raycaster.ray_outside`. -/
def ray_outside (pos : Vector ℚ) : Bool :=
  decide (pos.x ≥ (X_BLOCKS : ℚ) ∨ pos.y ≥ (Y_BLOCKS : ℚ) ∨ pos.z ≥ (Z_BLOCKS : ℚ)
    ∨ pos.x < 0 ∨ pos.y < 0 ∨ pos.z < 0)

/-- `Raycaster.on_block_border`: counts the axes whose offset from the
rounded coordinate is below `BLOCK_BORDER_SIZE`; true when at least two. -/
def on_block_border (pos : Vector ℚ) : Bool :=
  let cnt : ℕ :=
    (if |pos.x - (pyRound pos.x : ℚ)| < BLOCK_BORDER_SIZE then 1 else 0) +
    (if |pos.y - (pyRound pos.y : ℚ)| < BLOCK_BORDER_SIZE then 1 else 0) +
    (if |pos.z - (pyRound pos.z : ℚ)| < BLOCK_BORDER_SIZE then 1 else 0)
  decide (2 ≤ cnt)

/-- The block read `blocks[z][y][x]` with `x, y, z = int(pos.x), int(pos.y),
int(pos.z)` shared by the three traversal loops. -/
def cellAt (b : Blocks) (pos : Vector ℚ) : Char :=
  b (pyInt pos.z) (pyInt pos.y) (pyInt pos.x)

/-- One axis of the sequential `dist = min(dist, ...)` computation of the
DDA loops (src/raycast.py, lines 146-159, duplicated at 193-206 and
240-253): an axis participates only when its direction component exceeds
`RAY_EPSILON` in magnitude. -/
def axisMin (acc : ℚ) (p d : ℚ) : ℚ :=
  if d > RAY_EPSILON then min acc (((pyInt (p + 1) : ℚ) - p) / d)
  else if d < -RAY_EPSILON then min acc (((pyInt p : ℚ) - p) / d)
  else acc

/-- The value of `dist` after the three axis updates, starting from 2.0. -/
def distStep (pos d : Vector ℚ) : ℚ :=
  axisMin (axisMin (axisMin 2 pos.x d.x) pos.y d.y) pos.z d.z

/-- `pos = pos + direction * (dist + eps)` — the DDA stepping statement. -/
def stepPos (pos d : Vector ℚ) : Vector ℚ :=
  pos + d.scale (distStep pos d + RAY_EPSILON)

/-- `Raycaster.raytrace` with fuel: `none` means the loop is still running
after `fuel` executions of the stepping statement. -/
def raytrace (b : Blocks) (d : Vector ℚ) : ℕ → Vector ℚ → Option Char
  | 0, pos =>
    if ray_outside pos then some EMPTY_BLOCK
    else if cellAt b pos ≠ EMPTY_BLOCK then
      some (if on_block_border pos then BORDER_CHAR else cellAt b pos)
    else none
  | fuel + 1, pos =>
    if ray_outside pos then some EMPTY_BLOCK
    else if cellAt b pos ≠ EMPTY_BLOCK then
      some (if on_block_border pos then BORDER_CHAR else cellAt b pos)
    else raytrace b d fuel (stepPos pos d)

/-- `Raycaster.get_current_block` with fuel. -/
def get_current_block (b : Blocks) (d : Vector ℚ) :
    ℕ → Vector ℚ → Option (ℤ × ℤ × ℤ)
  | 0, pos =>
    if ray_outside pos then none
    else if cellAt b pos ≠ EMPTY_BLOCK then
      some (pyInt pos.x, pyInt pos.y, pyInt pos.z)
    else none
  | fuel + 1, pos =>
    if ray_outside pos then none
    else if cellAt b pos ≠ EMPTY_BLOCK then
      some (pyInt pos.x, pyInt pos.y, pyInt pos.z)
    else get_current_block b d fuel (stepPos pos d)

/-- `Raycaster.get_current_block_pos` with fuel. -/
def get_current_block_pos (b : Blocks) (d : Vector ℚ) :
    ℕ → Vector ℚ → Option (Vector ℚ)
  | 0, pos =>
    if ray_outside pos then none
    else if cellAt b pos ≠ EMPTY_BLOCK then some pos
    else none
  | fuel + 1, pos =>
    if ray_outside pos then none
    else if cellAt b pos ≠ EMPTY_BLOCK then some pos
    else get_current_block_pos b d fuel (stepPos pos d)

-- Player (src/player.py). The world object is threaded through the update
-- pipeline so that its final state is part of the embedding; the float
-- trigonometry of `angles_to_vect` is abstracted as the parameter `a2v`.

/-- The subset of the key state read by `Player.update`
(src/input_handler.py, `is_key_pressed`). -/
structure Keys where
  i : Bool
  k : Bool
  j : Bool
  l : Bool
  w : Bool
  s : Bool
  a : Bool
  d : Bool
deriving DecidableEq, Repr

/-- No key pressed. -/
def noKeys : Keys := ⟨false, false, false, false, false, false, false, false⟩

/-- Player state: position and view angles. -/
structure Player where
  pos : Vector ℚ
  view : Vector2 ℚ
deriving DecidableEq, Repr

/-- `init_player()`: spawn at `(5, 5, 4 + EYE_HEIGHT)` looking level. -/
def init_player : Player := ⟨⟨5, 5, 4 + EYE_HEIGHT⟩, ⟨0, 0⟩⟩

/-- `Player._apply_gravity`: fall one block when the cell below the feet is
in z-range and empty; the world is returned untouched (read-only queries). -/
def apply_gravity (w : Blocks) (p : Player) : Blocks × Player :=
  let x := pyInt p.pos.x
  let y := pyInt p.pos.y
  let zb := pyInt (p.pos.z - EYE_HEIGHT - 1/100)
  if 0 ≤ zb ∧ zb < Z_BLOCKS ∧ is_empty w x y zb then
    (w, { p with pos := { p.pos with z := p.pos.z - 1 } })
  else
    (w, p)

/-- `Player._apply_collision`: push up one block when standing inside a
non-empty cell; the world is returned untouched (read-only queries). -/
def apply_collision (w : Blocks) (p : Player) : Blocks × Player :=
  let x := pyInt p.pos.x
  let y := pyInt p.pos.y
  let za := pyInt (p.pos.z - EYE_HEIGHT + 1/100)
  if 0 ≤ za ∧ za < Z_BLOCKS ∧ ¬ is_empty w x y za then
    (w, { p with pos := { p.pos with z := p.pos.z + 1 } })
  else
    (w, p)

/-- `Player._process_movement`: the four movement keys accumulate into x/y,
then each coordinate is clamped; `a2v` stands for the float
`angles_to_vect` of the source. -/
def process_movement (a2v : Vector2 ℚ → Vector ℚ) (keys : Keys) (p : Player) :
    Player :=
  let dir := a2v p.view
  let x1 := if keys.i then p.pos.x + MOVE_SPEED * dir.x else p.pos.x
  let y1 := if keys.i then p.pos.y + MOVE_SPEED * dir.y else p.pos.y
  let x2 := if keys.k then x1 - MOVE_SPEED * dir.x else x1
  let y2 := if keys.k then y1 - MOVE_SPEED * dir.y else y1
  let x3 := if keys.j then x2 + MOVE_SPEED * dir.y else x2
  let y3 := if keys.j then y2 - MOVE_SPEED * dir.x else y2
  let x4 := if keys.l then x3 - MOVE_SPEED * dir.y else x3
  let y4 := if keys.l then y3 + MOVE_SPEED * dir.x else y3
  { p with pos :=
      ⟨max (1/10) (min ((X_BLOCKS : ℚ) - 1/10) x4),
       max (1/10) (min ((Y_BLOCKS : ℚ) - 1/10) y4),
       max EYE_HEIGHT (min ((Z_BLOCKS : ℚ) - 1/10) p.pos.z)⟩ }

/-- `Player._process_view`: the four rotation keys adjust the angles, then
the pitch is clamped to `[-1.5, 1.5]`. -/
def process_view (keys : Keys) (p : Player) : Player :=
  let psi1 := if keys.w then p.view.psi + TILT_SPEED else p.view.psi
  let psi2 := if keys.s then psi1 - TILT_SPEED else psi1
  let phi1 := if keys.d then p.view.phi + TILT_SPEED else p.view.phi
  let phi2 := if keys.a then phi1 - TILT_SPEED else phi1
  { p with view := ⟨max (-(3/2)) (min (3/2) psi2), phi2⟩ }

/-- `Player.update`: gravity, collision, movement, view, in that order; the
world flows through the pipeline and out again. -/
def update (a2v : Vector2 ℚ → Vector ℚ) (w : Blocks) (keys : Keys)
    (p : Player) : Blocks × Player :=
  let s1 := apply_gravity w p
  let s2 := apply_collision s1.1 s1.2
  (s2.1, process_view keys (process_movement a2v keys s2.2))

/-- Iterated update ticks. -/
def iterTicks (f : Player → Player) : ℕ → Player → Player
  | 0, p => p
  | n + 1, p => iterTicks f n (f p)

/-- Distances from a hit position to the six faces of its cell, in the
source enumeration order `+x, -x, +y, -y, +z, -z` (src/world.py, lines
107-114). -/
def faceDists (pos : Vector ℚ) : Fin 6 → ℚ := fun i =>
  let x : ℤ := pyInt pos.x
  let y : ℤ := pyInt pos.y
  let z : ℤ := pyInt pos.z
  match i with
  | 0 => |(x : ℚ) + 1 - pos.x|
  | 1 => |pos.x - (x : ℚ)|
  | 2 => |(y : ℚ) + 1 - pos.y|
  | 3 => |pos.y - (y : ℚ)|
  | 4 => |(z : ℚ) + 1 - pos.z|
  | 5 => |pos.z - (z : ℚ)|

/-- Neighbor offsets `dx`, `dy`, `dz` (src/world.py, lines 125-127). -/
def faceOffset : Fin 6 → ℤ × ℤ × ℤ
  | 0 => (1, 0, 0)
  | 1 => (-1, 0, 0)
  | 2 => (0, 1, 0)
  | 3 => (0, -1, 0)
  | 4 => (0, 0, 1)
  | 5 => (0, 0, -1)

/-- The `for i in range(1, 6)` scan of `World.place_block` (lines 116-122),
unrolled: the running state is the pair `(min_idx, min_dist)` and strict
`<` keeps the first minimum. -/
def minFace (d : Fin 6 → ℚ) : Fin 6 :=
  let s1 := if d 1 < d 0 then ((1 : Fin 6), d 1) else ((0 : Fin 6), d 0)
  let s2 := if d 2 < s1.2 then ((2 : Fin 6), d 2) else s1
  let s3 := if d 3 < s2.2 then ((3 : Fin 6), d 3) else s2
  let s4 := if d 4 < s3.2 then ((4 : Fin 6), d 4) else s3
  let s5 := if d 5 < s4.2 then ((5 : Fin 6), d 5) else s4
  s5.1

/-- `World.place_block`; returns the updated grid and the success flag. -/
def place_block (b : Blocks) (pos : Vector ℚ) (c : Char) : Blocks × Bool :=
  let x : ℤ := pyInt pos.x
  let y : ℤ := pyInt pos.y
  let z : ℤ := pyInt pos.z
  let idx : Fin 6 := minFace (faceDists pos)
  let o := faceOffset idx
  let nx := x + o.1
  let ny := y + o.2.1
  let nz := z + o.2.2
  if is_valid_position nx ny nz then (setCell b nz ny nx c, true) else (b, false)

-- Real-valued vector operations (src/vector.py). `math.sqrt`, `math.cos`
-- and `math.sin` are embedded as their exact real counterparts, so these
-- definitions live over ℝ.

/-- `Vector.length`. -/
noncomputable def length (v : Vector ℝ) : ℝ :=
  Real.sqrt (v.x * v.x + v.y * v.y + v.z * v.z)

/-- `Vector.normalize`: the zero-length case returns the zero vector. -/
noncomputable def normalize (v : Vector ℝ) : Vector ℝ :=
  if length v = 0 then ⟨0, 0, 0⟩
  else ⟨v.x / length v, v.y / length v, v.z / length v⟩

/-- `angles_to_vect`. -/
noncomputable def angles_to_vect (angles : Vector2 ℝ) : Vector ℝ :=
  ⟨Real.cos angles.psi * Real.cos angles.phi,
   Real.cos angles.psi * Real.sin angles.phi,
   Real.sin angles.psi⟩

-- Direction field (src/raycast.py, `Raycaster.init_directions`). The
-- Y_PIXELS × X_PIXELS nested lists are modelled as a function of the row
-- and column index (the program only reads indices inside the screen).

/-- `Y_PIXELS = 180`. -/
def Y_PIXELS : ℕ := 180

/-- `X_PIXELS = 900`. -/
def X_PIXELS : ℕ := 900

/-- The body of `Raycaster.init_directions`: the four frustum corner
directions, their midpoints, the two offset vectors, and the normalized
per-pixel interpolation (src/raycast.py, lines 42-73). -/
noncomputable def buildDirections (view : Vector2 ℝ) : ℕ → ℕ → Vector ℝ :=
  let screen_down := angles_to_vect ⟨view.psi - (VIEW_HEIGHT : ℝ) / 2, view.phi⟩
  let screen_up := angles_to_vect ⟨view.psi + (VIEW_HEIGHT : ℝ) / 2, view.phi⟩
  let screen_left := angles_to_vect ⟨view.psi, view.phi - (VIEW_WIDTH : ℝ) / 2⟩
  let screen_right := angles_to_vect ⟨view.psi, view.phi + (VIEW_WIDTH : ℝ) / 2⟩
  let screen_mid_vert := (screen_up + screen_down).scale (1/2)
  let screen_mid_hor := (screen_left + screen_right).scale (1/2)
  let mid_to_left := screen_left - screen_mid_hor
  let mid_to_up := screen_up - screen_mid_vert
  fun y_pix x_pix =>
    let t1 := screen_mid_hor + mid_to_left + mid_to_up
    let t2 := t1 - (mid_to_left.scale ((x_pix : ℝ) / ((X_PIXELS : ℝ) - 1))).scale 2
    let t3 := t2 - (mid_to_up.scale ((y_pix : ℝ) / ((Y_PIXELS : ℝ) - 1))).scale 2
    normalize t3

/-- The `Raycaster` object state: the stored direction grid. -/
structure Raycaster where
  directions : Option (ℕ → ℕ → Vector ℝ)

/-- A fresh `Raycaster()`: no stored directions. -/
def init_raycaster : Raycaster := ⟨none⟩

/-- `Raycaster.init_directions`: computes the grid from the view, stores it
in `self.directions` and returns it. -/
noncomputable def init_directions (r : Raycaster) (view : Vector2 ℝ) :
    (ℕ → ℕ → Vector ℝ) × Raycaster :=
  let directions := buildDirections view
  (directions, { r with directions := some directions })

-- Auxiliary quantities for the DDA termination analysis (claim C1).

/-- An axis participates in the `dist` computation exactly when its
direction component exceeds `RAY_EPSILON` in magnitude. -/
def axisFired (d : ℚ) : Prop := RAY_EPSILON < d ∨ d < -RAY_EPSILON

/-- The candidate step length a fired axis contributes to `dist`. -/
def tdist (p d : ℚ) : ℚ :=
  if RAY_EPSILON < d then ((pyInt (p + 1) : ℚ) - p) / d
  else ((pyInt p : ℚ) - p) / d

/-- Number of grid planes a fired axis can still cross before the position
leaves the world along that axis. -/
def remPlanes (p d : ℚ) (N : ℤ) : ℤ :=
  if RAY_EPSILON < d then N - ⌊p⌋
  else if d < -RAY_EPSILON then ⌊p⌋ + 1
  else 0

/-- Total number of grid planes the ray can still cross: a strictly
decreasing measure of the DDA loop. -/
def potential (pos d : Vector ℚ) : ℤ :=
  remPlanes pos.x d.x X_BLOCKS + remPlanes pos.y d.y Y_BLOCKS +
    remPlanes pos.z d.z Z_BLOCKS

-- Concrete states used by the gravity-settling claim (C6).

/-- A player at spawn x/y, one block above the resting height. -/
def startPlayer : Player := ⟨⟨5, 5, 4 + EYE_HEIGHT + 1⟩, ⟨0, 0⟩⟩

/-- The player resting on the default ground surface. -/
def restPlayer : Player := ⟨⟨5, 5, 4 + EYE_HEIGHT⟩, ⟨0, 0⟩⟩

-- Theorems. Component-unfolding helpers first.

/-- Components of a vector sum. -/
theorem add_components {α : Type} [Add α] (v w : Vector α) :
    v + w = ⟨v.x + w.x, v.y + w.y, v.z + w.z⟩ := rfl

/-- Components of a vector difference. -/
theorem sub_components {α : Type} [Sub α] (v w : Vector α) :
    v - w = ⟨v.x - w.x, v.y - w.y, v.z - w.z⟩ := rfl

/-- Components of a scaled vector. -/
theorem scale_components {α : Type} [Mul α] (v : Vector α) (s : α) :
    v.scale s = ⟨v.x * s, v.y * s, v.z * s⟩ := rfl

/-- Python truncation agrees with the floor on nonnegative arguments. -/
theorem pyInt_eq_floor (q : ℚ) (h : 0 ≤ q) : pyInt q = ⌊q⌋ := by
  simp [pyInt, h]

/-- `int(p + 1)` is `⌊p⌋ + 1` for nonnegative `p`. -/
theorem pyInt_add_one (p : ℚ) (h : 0 ≤ p) : pyInt (p + 1) = ⌊p⌋ + 1 := by
  rw [pyInt_eq_floor (p + 1) (by linarith)]
  exact_mod_cast Int.floor_add_one p

/-- Unfolding of the in-bounds test of the raycaster. -/
theorem ray_outside_eq_false (pos : Vector ℚ) :
    ray_outside pos = false ↔
      0 ≤ pos.x ∧ pos.x < 20 ∧ 0 ≤ pos.y ∧ pos.y < 20 ∧
        0 ≤ pos.z ∧ pos.z < 10 := by
  simp only [ray_outside, X_BLOCKS, Y_BLOCKS, Z_BLOCKS, decide_eq_false_iff_not]
  push_neg
  constructor
  · rintro ⟨h1, h2, h3, h4, h5, h6⟩
    refine ⟨h4, by exact_mod_cast h1, h5, by exact_mod_cast h2, h6, by exact_mod_cast h3⟩
  · rintro ⟨h1, h2, h3, h4, h5, h6⟩
    exact ⟨by exact_mod_cast h2, by exact_mod_cast h4, by exact_mod_cast h6, h1, h3, h5⟩

/-- A clamped value lies between its clamp bounds. -/
theorem clamp_mem (lo hi t : ℚ) (h : lo ≤ hi) :
    lo ≤ max lo (min hi t) ∧ max lo (min hi t) ≤ hi :=
  ⟨le_max_left _ _, max_le h (min_le_left _ _)⟩

/-- Claim C4: for every integer coordinate outside the world box, `get_block`
returns the empty identity, `set_block` leaves every cell unchanged, and
`remove_block` leaves the grid unchanged and returns false; all three are
total functions. -/
theorem claim_C4 (b : Blocks) (x y z : ℤ) (c : Char)
    (h : ¬ (0 ≤ x ∧ x < X_BLOCKS ∧ 0 ≤ y ∧ y < Y_BLOCKS ∧ 0 ≤ z ∧ z < Z_BLOCKS)) :
    get_block b x y z = EMPTY_BLOCK ∧
    set_block b x y z c = b ∧
    (∀ z' y' x' : ℤ, set_block b x y z c z' y' x' = b z' y' x') ∧
    remove_block b x y z = (b, false) := by
  have hv : is_valid_position x y z = false := by
    simp only [is_valid_position, decide_eq_false_iff_not]
    exact h
  refine ⟨?_, ?_, ?_, ?_⟩ <;>
    simp [get_block, set_block, remove_block, hv]

/-- Witness for C4 at the out-of-range coordinate `(20, 0, 0)`. -/
theorem claim_C4_witness :
    get_block groundWorld 20 0 0 = EMPTY_BLOCK ∧
    set_block groundWorld 20 0 0 GROUND_BLOCK = groundWorld ∧
    (∀ z' y' x' : ℤ,
      set_block groundWorld 20 0 0 GROUND_BLOCK z' y' x' = groundWorld z' y' x') ∧
    remove_block groundWorld 20 0 0 = (groundWorld, false) :=
  claim_C4 groundWorld 20 0 0 GROUND_BLOCK (by decide)

/-- Claim C9: a full player update returns the world it was given: the
pipeline only reads the grid and never writes a cell. -/
theorem claim_C9 (a2v : Vector2 ℚ → Vector ℚ) (w : Blocks) (keys : Keys)
    (p : Player) :
    (update a2v w keys p).1 = w ∧
    ∀ z y x : ℤ, (update a2v w keys p).1 z y x = w z y x := by
  have h : (update a2v w keys p).1 = w := by
    simp only [update, apply_gravity, apply_collision]
    split_ifs <;> rfl
  exact ⟨h, fun z y x => by rw [h]⟩

/-- Claim C7: after every full update — from any state, any world and any
key combination — the position lies in
`[0.1, X-0.1] × [0.1, Y-0.1] × [EYE_HEIGHT, Z-0.1]` and the pitch in
`[-1.5, 1.5]`; in particular every update preserves these bounds along any
tick sequence from spawn. -/
theorem claim_C7 (a2v : Vector2 ℚ → Vector ℚ) (w : Blocks) (keys : Keys)
    (p : Player) :
    (1/10 ≤ (update a2v w keys p).2.pos.x ∧
      (update a2v w keys p).2.pos.x ≤ (X_BLOCKS : ℚ) - 1/10) ∧
    (1/10 ≤ (update a2v w keys p).2.pos.y ∧
      (update a2v w keys p).2.pos.y ≤ (Y_BLOCKS : ℚ) - 1/10) ∧
    (EYE_HEIGHT ≤ (update a2v w keys p).2.pos.z ∧
      (update a2v w keys p).2.pos.z ≤ (Z_BLOCKS : ℚ) - 1/10) ∧
    (-(3/2) ≤ (update a2v w keys p).2.view.psi ∧
      (update a2v w keys p).2.view.psi ≤ 3/2) := by
  refine ⟨?_, ?_, ?_, ?_⟩
  · exact clamp_mem (1/10) ((X_BLOCKS : ℚ) - 1/10) _
      (by norm_num [X_BLOCKS])
  · exact clamp_mem (1/10) ((Y_BLOCKS : ℚ) - 1/10) _
      (by norm_num [Y_BLOCKS])
  · exact clamp_mem EYE_HEIGHT ((Z_BLOCKS : ℚ) - 1/10) _
      (by norm_num [Z_BLOCKS, EYE_HEIGHT])
  · exact clamp_mem (-(3/2)) (3/2) _ (by norm_num)

/-- Claim C6: with no keys pressed, a player one block above the default
ground settles to `z = 4 + EYE_HEIGHT` in a single gravity tick, and every
further no-input update leaves the resting state unchanged. -/
theorem claim_C6 (a2v : Vector2 ℚ → Vector ℚ) :
    (update a2v groundWorld noKeys startPlayer).2 = restPlayer ∧
    restPlayer.pos.z = 4 + EYE_HEIGHT ∧
    ∀ n : ℕ,
      iterTicks (fun p => (update a2v groundWorld noKeys p).2) n restPlayer =
        restPlayer := by
  have hch : (('@' : Char) = (' ' : Char)) = False := by
    simp only [eq_iff_iff, iff_false]
    decide
  have hfix : (update a2v groundWorld noKeys restPlayer).2 = restPlayer := by
    norm_num [update, apply_gravity, apply_collision, process_movement,
      process_view, restPlayer, noKeys, is_empty, get_block, is_valid_position,
      groundWorld, pyInt, EYE_HEIGHT, X_BLOCKS, Y_BLOCKS, Z_BLOCKS,
      EMPTY_BLOCK, GROUND_BLOCK, TILT_SPEED, MOVE_SPEED, hch]
  refine ⟨?_, rfl, ?_⟩
  · norm_num [update, apply_gravity, apply_collision, process_movement,
      process_view, startPlayer, restPlayer, noKeys, is_empty, get_block,
      is_valid_position, groundWorld, pyInt, EYE_HEIGHT, X_BLOCKS, Y_BLOCKS,
      Z_BLOCKS, EMPTY_BLOCK, GROUND_BLOCK, TILT_SPEED, MOVE_SPEED, hch]
  · intro n
    induction n with
    | zero => rfl
    | succ n ih => simpa [iterTicks, hfix] using ih

set_option maxHeartbeats 2000000 in
/-- The unrolled scan of `place_block` picks a face of minimum distance,
and strictly beats every earlier face: first minimum wins. -/
theorem minFace_spec (d : Fin 6 → ℚ) :
    (∀ j : Fin 6, d (minFace d) ≤ d j) ∧
    ∀ j : Fin 6, j < minFace d → d (minFace d) < d j := by
  simp only [minFace]
  split_ifs with h1 h2 h3 h4 h5 <;>
    exact ⟨fun j => by fin_cases j <;> simp_all <;> linarith,
      fun j hj => by fin_cases j <;> simp_all <;> linarith⟩

/-- Claim C3: `place_block` floors the hit position, measures the distance
to the six faces of that cell in the order `+x,-x,+y,-y,+z,-z`, picks the
first face of minimum distance, writes across it exactly when the neighbor
is in bounds (returning whether it wrote); at hit `(5.0, 5.5, 5.5)` it
writes into cell `(4,5,5)` and no other cell. -/
theorem claim_C3 (pos : Vector ℚ) (c : Char) (b : Blocks) :
    (∃ i : Fin 6,
      (∀ j : Fin 6, faceDists pos i ≤ faceDists pos j) ∧
      (∀ j : Fin 6, j < i → faceDists pos i < faceDists pos j) ∧
      place_block b pos c =
        (if is_valid_position (pyInt pos.x + (faceOffset i).1)
            (pyInt pos.y + (faceOffset i).2.1) (pyInt pos.z + (faceOffset i).2.2)
          then (setCell b (pyInt pos.z + (faceOffset i).2.2)
            (pyInt pos.y + (faceOffset i).2.1) (pyInt pos.x + (faceOffset i).1) c,
            true)
          else (b, false))) ∧
    place_block b ⟨5, 11/2, 11/2⟩ c = (setCell b 5 5 4 c, true) ∧
    setCell b 5 5 4 c 5 5 4 = c ∧
    (∀ z y x : ℤ, ¬ (z = 5 ∧ y = 5 ∧ x = 4) →
      setCell b 5 5 4 c z y x = b z y x) := by
  refine ⟨⟨minFace (faceDists pos), (minFace_spec (faceDists pos)).1,
      (minFace_spec (faceDists pos)).2, rfl⟩, ?_, ?_, ?_⟩
  · have ha : |(1 : ℚ)/2| = 1/2 := abs_of_nonneg (by norm_num)
    norm_num [place_block, minFace, faceDists, faceOffset, pyInt,
      is_valid_position, X_BLOCKS, Y_BLOCKS, Z_BLOCKS, ha]
  · simp [setCell]
  · intro z y x h
    simp [setCell, h]

/-- Witness for C3: the general statement applied at hit `(5, 5.5, 5.5)`,
checking that the write left the untouched cell `(0,0,0)` alone. -/
theorem claim_C3_witness :
    setCell groundWorld 5 5 4 GROUND_BLOCK 0 0 0 = groundWorld 0 0 0 :=
  (claim_C3 ⟨5, 11/2, 11/2⟩ GROUND_BLOCK groundWorld).2.2.2 0 0 0 (by decide)

/-- Claim C10: the two targeting traversals agree for every fuel, start,
direction and grid: `get_current_block` is the componentwise truncation of
`get_current_block_pos`, and a returned position is always in bounds with a
non-empty cell at its truncation; both are `none` together. -/
theorem claim_C10 (b : Blocks) (d : Vector ℚ) (n : ℕ) (pos : Vector ℚ) :
    get_current_block b d n pos =
      Option.map (fun p : Vector ℚ => (pyInt p.x, pyInt p.y, pyInt p.z))
        (get_current_block_pos b d n pos) ∧
    ∀ p : Vector ℚ, get_current_block_pos b d n pos = some p →
      ray_outside p = false ∧ cellAt b p ≠ EMPTY_BLOCK := by
  induction n generalizing pos with
  | zero =>
    constructor
    · simp only [get_current_block, get_current_block_pos]
      split_ifs <;> simp
    · intro p hp
      simp only [get_current_block_pos] at hp
      split_ifs at hp with hout hcell
      · cases hp
        exact ⟨Bool.eq_false_iff.mpr hout, hcell⟩
  | succ n ih =>
    constructor
    · simp only [get_current_block, get_current_block_pos]
      split_ifs <;> simp [(ih (stepPos pos d)).1]
    · intro p hp
      simp only [get_current_block_pos] at hp
      split_ifs at hp with hout hcell
      · cases hp
        exact ⟨Bool.eq_false_iff.mpr hout, hcell⟩
      · exact (ih (stepPos pos d)).2 p hp

/-- Witness for C10: a straight-down ray over the default ground from
`(0.5, 0.5, 4.5)` targets the position `(0.5, 0.5, 3.99)`, whose truncated
cell is in bounds and non-empty. -/
theorem claim_C10_witness :
    get_current_block_pos groundWorld ⟨0, 0, -1⟩ 2 ⟨1/2, 1/2, 9/2⟩ =
      some ⟨1/2, 1/2, 399/100⟩ ∧
    ray_outside (⟨1/2, 1/2, 399/100⟩ : Vector ℚ) = false ∧
    cellAt groundWorld ⟨1/2, 1/2, 399/100⟩ ≠ EMPTY_BLOCK := by
  have hch : ((' ' : Char) = (' ' : Char)) = True := by simp
  have hch2 : (('@' : Char) = (' ' : Char)) = False := by
    simp only [eq_iff_iff, iff_false]
    decide
  have hsome : get_current_block_pos groundWorld ⟨0, 0, -1⟩ 2 ⟨1/2, 1/2, 9/2⟩ =
      some ⟨1/2, 1/2, 399/100⟩ := by
    norm_num [get_current_block_pos, ray_outside, cellAt, stepPos, distStep,
      axisMin, pyInt, groundWorld, RAY_EPSILON, EMPTY_BLOCK, GROUND_BLOCK,
      X_BLOCKS, Y_BLOCKS, Z_BLOCKS, add_components, scale_components, hch2]
  have h := (claim_C10 groundWorld ⟨0, 0, -1⟩ 2 ⟨1/2, 1/2, 9/2⟩).2
    ⟨1/2, 1/2, 399/100⟩ hsome
  exact ⟨hsome, h.1, h.2⟩

/-- Python `round` returns a nearest integer: no integer is strictly
closer to `q` than `pyRound q`. -/
theorem pyRound_nearest (q : ℚ) (m : ℤ) :
    |q - (pyRound q : ℚ)| ≤ |q - (m : ℚ)| := by
  have hfl : ((⌊q⌋ : ℤ) : ℚ) ≤ q := Int.floor_le q
  have hfu : q < ((⌊q⌋ : ℤ) : ℚ) + 1 := Int.lt_floor_add_one q
  have hm : m ≤ ⌊q⌋ ∨ ⌊q⌋ + 1 ≤ m := by omega
  have hmc : (m : ℚ) ≤ ((⌊q⌋ : ℤ) : ℚ) ∨ ((⌊q⌋ : ℤ) : ℚ) + 1 ≤ (m : ℚ) := by
    rcases hm with h | h
    · exact Or.inl (by exact_mod_cast h)
    · right
      exact_mod_cast h
  unfold pyRound
  split_ifs with h1 h2 h3 <;> push_cast <;>
    rcases hmc with hmc | hmc <;>
    rcases abs_cases (q - (m : ℚ)) with ⟨e2, he2⟩ | ⟨e2, he2⟩ <;>
    rcases abs_cases (q - ((⌊q⌋ : ℤ) : ℚ)) with ⟨e1, he1⟩ | ⟨e1, he1⟩ <;>
    rcases abs_cases (q - (((⌊q⌋ : ℤ) : ℚ) + 1)) with ⟨e3, he3⟩ | ⟨e3, he3⟩ <;>
    simp only [e1, e2, e3] <;> linarith

/-- The rounded-offset test of a single axis is the nearest-integer test of
the design notes. -/
theorem border_axis_iff (q : ℚ) :
    |q - (pyRound q : ℚ)| < BLOCK_BORDER_SIZE ↔
      ∃ m : ℤ, |q - (m : ℚ)| < BLOCK_BORDER_SIZE :=
  ⟨fun h => ⟨pyRound q, h⟩,
   fun ⟨m, hm⟩ => lt_of_le_of_lt (pyRound_nearest q m) hm⟩

/-- `on_block_border` holds exactly when at least two of the three
coordinates lie within `BLOCK_BORDER_SIZE` of some integer. -/
theorem on_block_border_iff (pos : Vector ℚ) :
    on_block_border pos = true ↔
      ((∃ m : ℤ, |pos.x - (m : ℚ)| < BLOCK_BORDER_SIZE) ∧
        (∃ m : ℤ, |pos.y - (m : ℚ)| < BLOCK_BORDER_SIZE)) ∨
      ((∃ m : ℤ, |pos.x - (m : ℚ)| < BLOCK_BORDER_SIZE) ∧
        (∃ m : ℤ, |pos.z - (m : ℚ)| < BLOCK_BORDER_SIZE)) ∨
      ((∃ m : ℤ, |pos.y - (m : ℚ)| < BLOCK_BORDER_SIZE) ∧
        (∃ m : ℤ, |pos.z - (m : ℚ)| < BLOCK_BORDER_SIZE)) := by
  rw [← border_axis_iff pos.x, ← border_axis_iff pos.y, ← border_axis_iff pos.z]
  by_cases hx : |pos.x - (pyRound pos.x : ℚ)| < BLOCK_BORDER_SIZE <;>
    by_cases hy : |pos.y - (pyRound pos.y : ℚ)| < BLOCK_BORDER_SIZE <;>
    by_cases hz : |pos.z - (pyRound pos.z : ℚ)| < BLOCK_BORDER_SIZE <;>
    simp [on_block_border, hx, hy, hz]

/-- Claim C5: when the DDA hits a non-empty cell it returns the border
character precisely when at least two coordinates are within the border
threshold of an integer, and the cell's own identity otherwise. -/
theorem claim_C5 (n : ℕ) (pos d : Vector ℚ) (b : Blocks)
    (h1 : ray_outside pos = false) (h2 : cellAt b pos ≠ EMPTY_BLOCK) :
    raytrace b d n pos =
      some (if on_block_border pos then BORDER_CHAR else cellAt b pos) ∧
    (on_block_border pos = true ↔
      ((∃ m : ℤ, |pos.x - (m : ℚ)| < BLOCK_BORDER_SIZE) ∧
        (∃ m : ℤ, |pos.y - (m : ℚ)| < BLOCK_BORDER_SIZE)) ∨
      ((∃ m : ℤ, |pos.x - (m : ℚ)| < BLOCK_BORDER_SIZE) ∧
        (∃ m : ℤ, |pos.z - (m : ℚ)| < BLOCK_BORDER_SIZE)) ∨
      ((∃ m : ℤ, |pos.y - (m : ℚ)| < BLOCK_BORDER_SIZE) ∧
        (∃ m : ℤ, |pos.z - (m : ℚ)| < BLOCK_BORDER_SIZE))) := by
  refine ⟨?_, on_block_border_iff pos⟩
  cases n <;> simp [raytrace, h1, h2]

/-- Witness for C5: the ground hit at `(0.5, 0.5, 3.99)` is near an integer
on only one axis (z), so the traversal reports the ground identity. -/
theorem claim_C5_witness :
    ray_outside (⟨1/2, 1/2, 399/100⟩ : Vector ℚ) = false ∧
    cellAt groundWorld ⟨1/2, 1/2, 399/100⟩ ≠ EMPTY_BLOCK ∧
    raytrace groundWorld ⟨0, 0, -1⟩ 0 ⟨1/2, 1/2, 399/100⟩ = some GROUND_BLOCK := by
  have h1 : ray_outside (⟨1/2, 1/2, 399/100⟩ : Vector ℚ) = false := by
    norm_num [ray_outside, X_BLOCKS, Y_BLOCKS, Z_BLOCKS]
  have hcell : cellAt groundWorld ⟨1/2, 1/2, 399/100⟩ = GROUND_BLOCK := by
    norm_num [cellAt, pyInt, groundWorld, X_BLOCKS, Y_BLOCKS, GROUND_BLOCK]
  have h2 : cellAt groundWorld ⟨1/2, 1/2, 399/100⟩ ≠ EMPTY_BLOCK := by
    rw [hcell]
    decide
  have ha1 : |(1 : ℚ)/2| = 1/2 := abs_of_nonneg (by norm_num)
  have ha2 : |(399 : ℚ)/100 - 4| = 1/100 := by
    rw [abs_of_nonpos (by norm_num)]
    norm_num
  have ha3 : |(1 : ℚ)/100| = 1/100 := abs_of_nonneg (by norm_num)
  have hb : on_block_border (⟨1/2, 1/2, 399/100⟩ : Vector ℚ) = false := by
    norm_num [on_block_border, pyRound, BLOCK_BORDER_SIZE, ha1, ha2, ha3]
  have h3 := (claim_C5 0 ⟨1/2, 1/2, 399/100⟩ ⟨0, 0, -1⟩ groundWorld h1 h2).1
  rw [hb, hcell] at h3
  simp only [Bool.false_eq_true, if_false] at h3
  exact ⟨h1, h2, h3⟩

-- DDA termination (claim C1): each stepping iteration crosses at least one
-- grid plane on a fired axis, so the total plane count `potential` is a
-- strictly decreasing nonnegative measure.

/-- `RAY_EPSILON` is positive. -/
theorem eps_pos : (0 : ℚ) < RAY_EPSILON := by norm_num [RAY_EPSILON]

/-- A component of magnitude at least one half fires its axis. -/
theorem axisFired_of_half (d : ℚ) (h : 1/2 ≤ |d|) : axisFired d := by
  rcases abs_cases d with ⟨he, _⟩ | ⟨he, _⟩
  · exact Or.inl (by rw [he] at h; norm_num [RAY_EPSILON]; linarith)
  · exact Or.inr (by rw [he] at h; norm_num [RAY_EPSILON]; linarith)

/-- A fired axis contributes a nonnegative step candidate. -/
theorem tdist_nonneg (p d : ℚ) (h0 : 0 ≤ p) (hf : axisFired d) :
    0 ≤ tdist p d := by
  unfold tdist
  rcases hf with hf | hf
  · rw [if_pos hf, pyInt_add_one p h0]
    apply div_nonneg _ (by linarith [eps_pos])
    push_cast
    linarith [Int.lt_floor_add_one p]
  · have hnd : ¬ (RAY_EPSILON < d) := by intro h; linarith [eps_pos]
    rw [if_neg hnd, pyInt_eq_floor p h0]
    apply div_nonneg_of_nonpos
    · linarith [Int.floor_le p]
    · linarith [eps_pos]

/-- An axis whose component has magnitude at least one half contributes a
step candidate of at most two. -/
theorem tdist_le_two (p d : ℚ) (h0 : 0 ≤ p) (hd : 1/2 ≤ |d|) :
    tdist p d ≤ 2 := by
  unfold tdist
  rcases abs_cases d with ⟨he, _⟩ | ⟨he, _⟩
  · have hd2 : 1/2 ≤ d := by rw [he] at hd; exact hd
    have hcond : RAY_EPSILON < d := by norm_num [RAY_EPSILON]; linarith
    rw [if_pos hcond, pyInt_add_one p h0, div_le_iff₀ (by linarith : (0:ℚ) < d)]
    push_cast
    linarith [Int.floor_le p]
  · have hd2 : 1/2 ≤ -d := by rw [he] at hd; exact hd
    have hcond : ¬ (RAY_EPSILON < d) := by intro h; norm_num [RAY_EPSILON] at h; linarith
    rw [if_neg hcond, pyInt_eq_floor p h0, div_le_iff_of_neg (by linarith : d < 0)]
    linarith [Int.lt_floor_add_one p]

/-- Each `min` update can only shrink the running `dist`. -/
theorem axisMin_le_acc (acc p d : ℚ) : axisMin acc p d ≤ acc := by
  unfold axisMin
  split_ifs <;> simp [min_le_left]

/-- A fired axis caps the running `dist` by its own candidate. -/
theorem axisMin_le_tdist (acc p d : ℚ) (hf : axisFired d) :
    axisMin acc p d ≤ tdist p d := by
  unfold axisMin tdist
  rcases hf with hf | hf
  · rw [if_pos hf, if_pos hf]
    exact min_le_right _ _
  · have hnd : ¬ (RAY_EPSILON < d) := by intro h; linarith [eps_pos]
    rw [if_neg hnd, if_pos hf, if_neg hnd]
    exact min_le_right _ _

/-- Each `min` update either keeps the accumulator or switches to the
candidate of a fired axis. -/
theorem axisMin_cases (acc p d : ℚ) :
    axisMin acc p d = acc ∨ (axisFired d ∧ axisMin acc p d = tdist p d) := by
  unfold axisMin tdist
  split_ifs with ha hb
  · rcases min_cases acc (((((pyInt (p + 1)) : ℤ) : ℚ) - p) / d) with ⟨h, _⟩ | ⟨h, _⟩
    · exact Or.inl h
    · exact Or.inr ⟨Or.inl ha, h⟩
  · rcases min_cases acc (((((pyInt p) : ℤ) : ℚ) - p) / d) with ⟨h, _⟩ | ⟨h, _⟩
    · exact Or.inl h
    · exact Or.inr ⟨Or.inr hb, h⟩
  · exact Or.inl rfl

/-- The step length is the cap 2 or the candidate of some fired axis. -/
theorem distStep_cases (pos d : Vector ℚ) :
    distStep pos d = 2 ∨
    (axisFired d.x ∧ distStep pos d = tdist pos.x d.x) ∨
    (axisFired d.y ∧ distStep pos d = tdist pos.y d.y) ∨
    (axisFired d.z ∧ distStep pos d = tdist pos.z d.z) := by
  unfold distStep
  rcases axisMin_cases (axisMin (axisMin 2 pos.x d.x) pos.y d.y) pos.z d.z with
    h | ⟨hf, h⟩
  · rw [h]
    rcases axisMin_cases (axisMin 2 pos.x d.x) pos.y d.y with h2 | ⟨hf2, h2⟩
    · rw [h2]
      rcases axisMin_cases 2 pos.x d.x with h3 | ⟨hf3, h3⟩
      · exact Or.inl h3
      · exact Or.inr (Or.inl ⟨hf3, h3⟩)
    · exact Or.inr (Or.inr (Or.inl ⟨hf2, h2⟩))
  · exact Or.inr (Or.inr (Or.inr ⟨hf, h⟩))

/-- The step length is bounded by the candidate of every fired axis. -/
theorem distStep_le_tdist (pos d : Vector ℚ) :
    (axisFired d.x → distStep pos d ≤ tdist pos.x d.x) ∧
    (axisFired d.y → distStep pos d ≤ tdist pos.y d.y) ∧
    (axisFired d.z → distStep pos d ≤ tdist pos.z d.z) := by
  unfold distStep
  refine ⟨fun hf => ?_, fun hf => ?_, fun hf => ?_⟩
  · calc axisMin (axisMin (axisMin 2 pos.x d.x) pos.y d.y) pos.z d.z
        ≤ axisMin (axisMin 2 pos.x d.x) pos.y d.y := axisMin_le_acc _ _ _
      _ ≤ axisMin 2 pos.x d.x := axisMin_le_acc _ _ _
      _ ≤ tdist pos.x d.x := axisMin_le_tdist _ _ _ hf
  · calc axisMin (axisMin (axisMin 2 pos.x d.x) pos.y d.y) pos.z d.z
        ≤ axisMin (axisMin 2 pos.x d.x) pos.y d.y := axisMin_le_acc _ _ _
      _ ≤ tdist pos.y d.y := axisMin_le_tdist _ _ _ hf
  · exact axisMin_le_tdist _ _ _ hf

/-- The step length is nonnegative inside the world. -/
theorem distStep_nonneg (pos d : Vector ℚ) (h0x : 0 ≤ pos.x) (h0y : 0 ≤ pos.y)
    (h0z : 0 ≤ pos.z) : 0 ≤ distStep pos d := by
  rcases distStep_cases pos d with h | ⟨hf, h⟩ | ⟨hf, h⟩ | ⟨hf, h⟩ <;> rw [h]
  · norm_num
  · exact tdist_nonneg _ _ h0x hf
  · exact tdist_nonneg _ _ h0y hf
  · exact tdist_nonneg _ _ h0z hf

/-- An in-range axis has a nonnegative plane count. -/
theorem remPlanes_nonneg (p d : ℚ) (N : ℤ) (h0 : 0 ≤ p) (hN : p < (N : ℚ)) :
    0 ≤ remPlanes p d N := by
  have h1 : ⌊p⌋ < N := Int.floor_lt.mpr hN
  have h2 : 0 ≤ ⌊p⌋ := Int.floor_nonneg.mpr h0
  unfold remPlanes
  split_ifs <;> omega

/-- An in-range fired axis has at least one plane left to cross. -/
theorem remPlanes_pos (p d : ℚ) (N : ℤ) (h0 : 0 ≤ p) (hN : p < (N : ℚ))
    (hf : axisFired d) : 1 ≤ remPlanes p d N := by
  have h1 : ⌊p⌋ < N := Int.floor_lt.mpr hN
  have h2 : 0 ≤ ⌊p⌋ := Int.floor_nonneg.mpr h0
  unfold remPlanes
  rcases hf with hf | hf
  · rw [if_pos hf]
    omega
  · have hnd : ¬ (RAY_EPSILON < d) := by intro h; linarith [eps_pos]
    rw [if_neg hnd, if_pos hf]
    omega

/-- An in-range axis has at most `N` planes left to cross. -/
theorem remPlanes_le (p d : ℚ) (N : ℤ) (h0 : 0 ≤ p) (hN : p < (N : ℚ)) :
    remPlanes p d N ≤ N := by
  have h1 : ⌊p⌋ < N := Int.floor_lt.mpr hN
  have h2 : 0 ≤ ⌊p⌋ := Int.floor_nonneg.mpr h0
  unfold remPlanes
  split_ifs <;> omega

/-- Moving along the axis direction never increases the plane count. -/
theorem remPlanes_mono (p d s : ℚ) (N : ℤ) (hs : 0 ≤ s) :
    remPlanes (p + d * s) d N ≤ remPlanes p d N := by
  unfold remPlanes
  split_ifs with h1 h2
  · have hds : 0 ≤ d * s := mul_nonneg (by linarith [eps_pos]) hs
    have := Int.floor_mono (show p ≤ p + d * s by linarith)
    omega
  · have hds : d * s ≤ 0 := mul_nonpos_of_nonpos_of_nonneg (by linarith [eps_pos]) hs
    have := Int.floor_mono (show p + d * s ≤ p by linarith)
    omega
  · omega

/-- When the step length is at least the axis candidate, the step crosses a
plane of that axis: its count drops. -/
theorem remPlanes_cross (p d s : ℚ) (N : ℤ) (h0 : 0 ≤ p) (hf : axisFired d)
    (ht : tdist p d ≤ s) :
    remPlanes (p + d * (s + RAY_EPSILON)) d N ≤ remPlanes p d N - 1 := by
  unfold remPlanes
  rcases hf with hf | hf
  · rw [if_pos hf, if_pos hf]
    rw [tdist, if_pos hf, pyInt_add_one p h0] at ht
    have hd0 : (0 : ℚ) < d := lt_trans eps_pos hf
    have hmul : ((⌊p⌋ : ℤ) : ℚ) + 1 - p ≤ s * d := by
      have := (div_le_iff₀ hd0).mp ht
      push_cast at this
      linarith
    have hlt : ((⌊p⌋ : ℤ) : ℚ) + 1 < p + d * (s + RAY_EPSILON) := by
      nlinarith [mul_pos hd0 eps_pos]
    have hfl : ⌊p⌋ + 1 ≤ ⌊p + d * (s + RAY_EPSILON)⌋ := by
      apply Int.le_floor.mpr
      push_cast
      linarith
    omega
  · have hnd : ¬ (RAY_EPSILON < d) := by intro h; linarith [eps_pos]
    rw [if_neg hnd, if_pos hf, if_neg hnd, if_pos hf]
    rw [tdist, if_neg hnd, pyInt_eq_floor p h0] at ht
    have hd0 : d < 0 := by linarith [eps_pos]
    have hmul : s * d ≤ ((⌊p⌋ : ℤ) : ℚ) - p := (div_le_iff_of_neg hd0).mp ht
    have hlt : p + d * (s + RAY_EPSILON) < ((⌊p⌋ : ℤ) : ℚ) := by
      nlinarith [mul_neg_of_neg_of_pos hd0 eps_pos]
    have hfl : ⌊p + d * (s + RAY_EPSILON)⌋ < ⌊p⌋ := by
      apply Int.floor_lt.mpr
      linarith
    omega

/-- Inside the world the potential is at most `X + Y + Z = 50`. -/
theorem potential_le (pos d : Vector ℚ) (hin : ray_outside pos = false) :
    potential pos d ≤ 50 := by
  obtain ⟨h0x, hx, h0y, hy, h0z, hz⟩ := (ray_outside_eq_false pos).mp hin
  have h1 := remPlanes_le pos.x d.x X_BLOCKS h0x (by norm_num [X_BLOCKS]; exact hx)
  have h2 := remPlanes_le pos.y d.y Y_BLOCKS h0y (by norm_num [Y_BLOCKS]; exact hy)
  have h3 := remPlanes_le pos.z d.z Z_BLOCKS h0z (by norm_num [Z_BLOCKS]; exact hz)
  unfold potential
  unfold X_BLOCKS Y_BLOCKS Z_BLOCKS at *
  omega

/-- Inside the world, a direction with a large component keeps the
potential positive. -/
theorem potential_pos (pos d : Vector ℚ) (hin : ray_outside pos = false)
    (hd : 1/2 ≤ |d.x| ∨ 1/2 ≤ |d.y| ∨ 1/2 ≤ |d.z|) : 1 ≤ potential pos d := by
  obtain ⟨h0x, hx, h0y, hy, h0z, hz⟩ := (ray_outside_eq_false pos).mp hin
  have h1 := remPlanes_nonneg pos.x d.x X_BLOCKS h0x (by norm_num [X_BLOCKS]; exact hx)
  have h2 := remPlanes_nonneg pos.y d.y Y_BLOCKS h0y (by norm_num [Y_BLOCKS]; exact hy)
  have h3 := remPlanes_nonneg pos.z d.z Z_BLOCKS h0z (by norm_num [Z_BLOCKS]; exact hz)
  unfold potential
  rcases hd with hd | hd | hd
  · have := remPlanes_pos pos.x d.x X_BLOCKS h0x (by norm_num [X_BLOCKS]; exact hx)
      (axisFired_of_half _ hd)
    omega
  · have := remPlanes_pos pos.y d.y Y_BLOCKS h0y (by norm_num [Y_BLOCKS]; exact hy)
      (axisFired_of_half _ hd)
    omega
  · have := remPlanes_pos pos.z d.z Z_BLOCKS h0z (by norm_num [Z_BLOCKS]; exact hz)
      (axisFired_of_half _ hd)
    omega

/-- Every DDA step from an in-bounds position strictly decreases the
potential, for directions with a component of magnitude at least one half. -/
theorem potential_decrease (pos d : Vector ℚ) (hin : ray_outside pos = false)
    (hd : 1/2 ≤ |d.x| ∨ 1/2 ≤ |d.y| ∨ 1/2 ≤ |d.z|) :
    potential (stepPos pos d) d ≤ potential pos d - 1 := by
  obtain ⟨h0x, hx, h0y, hy, h0z, hz⟩ := (ray_outside_eq_false pos).mp hin
  have hs0 : 0 ≤ distStep pos d := distStep_nonneg pos d h0x h0y h0z
  have hse : 0 ≤ distStep pos d + RAY_EPSILON := by linarith [eps_pos]
  have hcx : (stepPos pos d).x = pos.x + d.x * (distStep pos d + RAY_EPSILON) := rfl
  have hcy : (stepPos pos d).y = pos.y + d.y * (distStep pos d + RAY_EPSILON) := rfl
  have hcz : (stepPos pos d).z = pos.z + d.z * (distStep pos d + RAY_EPSILON) := rfl
  have hmx := remPlanes_mono pos.x d.x (distStep pos d + RAY_EPSILON) X_BLOCKS hse
  have hmy := remPlanes_mono pos.y d.y (distStep pos d + RAY_EPSILON) Y_BLOCKS hse
  have hmz := remPlanes_mono pos.z d.z (distStep pos d + RAY_EPSILON) Z_BLOCKS hse
  have hcross : (axisFired d.x ∧ tdist pos.x d.x ≤ distStep pos d) ∨
      (axisFired d.y ∧ tdist pos.y d.y ≤ distStep pos d) ∨
      (axisFired d.z ∧ tdist pos.z d.z ≤ distStep pos d) := by
    rcases distStep_cases pos d with hc | ⟨hf, hc⟩ | ⟨hf, hc⟩ | ⟨hf, hc⟩
    · rcases hd with hd | hd | hd
      · exact Or.inl ⟨axisFired_of_half _ hd, by rw [hc]; exact tdist_le_two _ _ h0x hd⟩
      · exact Or.inr (Or.inl ⟨axisFired_of_half _ hd,
          by rw [hc]; exact tdist_le_two _ _ h0y hd⟩)
      · exact Or.inr (Or.inr ⟨axisFired_of_half _ hd,
          by rw [hc]; exact tdist_le_two _ _ h0z hd⟩)
    · exact Or.inl ⟨hf, le_of_eq hc.symm⟩
    · exact Or.inr (Or.inl ⟨hf, le_of_eq hc.symm⟩)
    · exact Or.inr (Or.inr ⟨hf, le_of_eq hc.symm⟩)
  unfold potential
  rw [hcx, hcy, hcz]
  rcases hcross with ⟨hf, ht⟩ | ⟨hf, ht⟩ | ⟨hf, ht⟩
  · have := remPlanes_cross pos.x d.x (distStep pos d) X_BLOCKS h0x hf ht
    omega
  · have := remPlanes_cross pos.y d.y (distStep pos d) Y_BLOCKS h0y hf ht
    omega
  · have := remPlanes_cross pos.z d.z (distStep pos d) Z_BLOCKS h0z hf ht
    omega

/-- A ray already outside the world returns immediately at any fuel. -/
theorem raytrace_isSome_outside (b : Blocks) (d : Vector ℚ) (n : ℕ)
    (pos : Vector ℚ) (h : ray_outside pos = true) :
    (raytrace b d n pos).isSome := by
  cases n <;> simp [raytrace, h]

/-- Fuel at least the potential suffices for the DDA loop to return. -/
theorem raytrace_isSome_of_potential (b : Blocks) (d : Vector ℚ)
    (hd : 1/2 ≤ |d.x| ∨ 1/2 ≤ |d.y| ∨ 1/2 ≤ |d.z|) :
    ∀ n : ℕ, ∀ pos : Vector ℚ, ray_outside pos = false →
      potential pos d ≤ (n : ℤ) → (raytrace b d n pos).isSome := by
  intro n
  induction n with
  | zero =>
    intro pos hin hP
    have h1 := potential_pos pos d hin hd
    omega
  | succ n ih =>
    intro pos hin hP
    by_cases hc : cellAt b pos = EMPTY_BLOCK
    · simp only [raytrace, hin, Bool.false_eq_true, if_false, hc, ne_eq,
        not_true_eq_false]
      cases hout : ray_outside (stepPos pos d) with
      | true => exact raytrace_isSome_outside b d n (stepPos pos d) hout
      | false =>
        apply ih (stepPos pos d) hout
        have := potential_decrease pos d hin hd
        push_cast at hP ⊢
        omega
    · simp [raytrace, hin, hc]

/-- Claim C1 (amended): for an origin inside the world and a direction with
some component of magnitude at least one half — which covers every
unit-length direction — the DDA loop returns within
`X_BLOCKS + Y_BLOCKS + Z_BLOCKS = 50` stepping iterations. -/
theorem claim_C1_amended (pos d : Vector ℚ) (b : Blocks)
    (hin : ray_outside pos = false)
    (hd : 1/2 ≤ |d.x| ∨ 1/2 ≤ |d.y| ∨ 1/2 ≤ |d.z|) :
    (raytrace b d 50 pos).isSome := by
  apply raytrace_isSome_of_potential b d hd 50 pos hin
  have := potential_le pos d hin
  push_cast
  omega

/-- Witness for the amended C1: the unit ray `(1,0,0)` from
`(0.5, 0.5, 4.5)` over the default ground. -/
theorem claim_C1_amended_witness :
    ray_outside (⟨1/2, 1/2, 9/2⟩ : Vector ℚ) = false ∧
    (1/2 ≤ |(1 : ℚ)| ∨ 1/2 ≤ |(0 : ℚ)| ∨ 1/2 ≤ |(0 : ℚ)|) ∧
    (raytrace groundWorld (⟨1, 0, 0⟩ : Vector ℚ) 50 ⟨1/2, 1/2, 9/2⟩).isSome := by
  have h1 : ray_outside (⟨1/2, 1/2, 9/2⟩ : Vector ℚ) = false := by
    norm_num [ray_outside, X_BLOCKS, Y_BLOCKS, Z_BLOCKS]
  have h2 : 1/2 ≤ |(1 : ℚ)| ∨ 1/2 ≤ |(0 : ℚ)| ∨ 1/2 ≤ |(0 : ℚ)| := by
    left
    norm_num
  exact ⟨h1, h2, claim_C1_amended ⟨1/2, 1/2, 9/2⟩ ⟨1, 0, 0⟩ groundWorld h1 h2⟩

set_option maxRecDepth 100000 in
set_option maxHeartbeats 8000000 in
/-- Counterexample to C1 as stated: the nonzero direction `(0.005, 0, 0)`
— all components below `RAY_EPSILON` — advances only `0.201 · 0.05` per
step from the in-bounds origin `(0.5, 0.5, 4.5)`, so after 50 stepping
iterations the loop is still running. -/
theorem claim_C1_counterexample :
    ray_outside (⟨1/2, 1/2, 9/2⟩ : Vector ℚ) = false ∧
    (⟨1/200, 0, 0⟩ : Vector ℚ) ≠ (⟨0, 0, 0⟩ : Vector ℚ) ∧
    raytrace groundWorld ⟨1/200, 0, 0⟩ 50 ⟨1/2, 1/2, 9/2⟩ = none := by
  refine ⟨by norm_num [ray_outside, X_BLOCKS, Y_BLOCKS, Z_BLOCKS], by simp, ?_⟩
  norm_num [raytrace, ray_outside, cellAt, stepPos, distStep, axisMin, pyInt,
    groundWorld, RAY_EPSILON, EMPTY_BLOCK, GROUND_BLOCK, X_BLOCKS, Y_BLOCKS,
    Z_BLOCKS, add_components, scale_components]

-- Unit-length invariants of the real vector operations (claim C8).

/-- The angle-to-vector conversion always yields an exactly unit vector. -/
theorem length_angles_to_vect (a : Vector2 ℝ) : length (angles_to_vect a) = 1 := by
  show Real.sqrt
    ((Real.cos a.psi * Real.cos a.phi) * (Real.cos a.psi * Real.cos a.phi) +
      (Real.cos a.psi * Real.sin a.phi) * (Real.cos a.psi * Real.sin a.phi) +
      Real.sin a.psi * Real.sin a.psi) = 1
  have h : (Real.cos a.psi * Real.cos a.phi) * (Real.cos a.psi * Real.cos a.phi) +
      (Real.cos a.psi * Real.sin a.phi) * (Real.cos a.psi * Real.sin a.phi) +
      Real.sin a.psi * Real.sin a.psi = 1 := by
    nlinarith [Real.sin_sq_add_cos_sq a.psi, Real.sin_sq_add_cos_sq a.phi]
  rw [h, Real.sqrt_one]

/-- Normalizing a vector of nonzero length yields an exactly unit vector. -/
theorem length_normalize (v : Vector ℝ) (h : length v ≠ 0) :
    length (normalize v) = 1 := by
  have hs : 0 ≤ v.x * v.x + v.y * v.y + v.z * v.z :=
    add_nonneg (add_nonneg (mul_self_nonneg _) (mul_self_nonneg _))
      (mul_self_nonneg _)
  have hl0 : 0 < length v := lt_of_le_of_ne (Real.sqrt_nonneg _) (Ne.symm h)
  have hsq : length v * length v = v.x * v.x + v.y * v.y + v.z * v.z :=
    Real.mul_self_sqrt hs
  rw [normalize, if_neg h]
  show Real.sqrt ((v.x / length v) * (v.x / length v) +
    (v.y / length v) * (v.y / length v) + (v.z / length v) * (v.z / length v)) = 1
  have hone : (v.x / length v) * (v.x / length v) +
      (v.y / length v) * (v.y / length v) +
      (v.z / length v) * (v.z / length v) = 1 := by
    field_simp
    nlinarith [hsq]
  rw [hone, Real.sqrt_one]

/-- Claim C8 (amended): any direction produced by `angles_to_vect`, and the
result of `normalize` on any vector of nonzero length, has length within
`1e-6` of one (here: exactly one). -/
theorem claim_C8_amended :
    (∀ a : Vector2 ℝ, |length (angles_to_vect a) - 1| ≤ 1/1000000) ∧
    (∀ v : Vector ℝ, length v ≠ 0 → |length (normalize v) - 1| ≤ 1/1000000) := by
  constructor
  · intro a
    rw [length_angles_to_vect a]
    norm_num
  · intro v h
    rw [length_normalize v h]
    norm_num

/-- Witness for the amended C8 at the vector `(1, 0, 0)`. -/
theorem claim_C8_amended_witness :
    length (⟨1, 0, 0⟩ : Vector ℝ) ≠ 0 ∧
    |length (normalize (⟨1, 0, 0⟩ : Vector ℝ)) - 1| ≤ 1/1000000 := by
  have h : length (⟨1, 0, 0⟩ : Vector ℝ) ≠ 0 := by
    show Real.sqrt ((1:ℝ) * 1 + 0 * 0 + 0 * 0) ≠ 0
    rw [show (1:ℝ) * 1 + 0 * 0 + 0 * 0 = 1 by norm_num, Real.sqrt_one]
    norm_num
  exact ⟨h, claim_C8_amended.2 ⟨1, 0, 0⟩ h⟩

/-- Counterexample to C8 as stated: `normalize` of the zero vector returns
the zero vector, whose length 0 is not within `1e-6` of one. -/
theorem claim_C8_counterexample :
    ¬ (|length (normalize (⟨0, 0, 0⟩ : Vector ℝ)) - 1| ≤ 1/1000000) := by
  have h0 : length (⟨0, 0, 0⟩ : Vector ℝ) = 0 := by
    show Real.sqrt ((0:ℝ) * 0 + 0 * 0 + 0 * 0) = 0
    rw [show (0:ℝ) * 0 + 0 * 0 + 0 * 0 = 0 by norm_num, Real.sqrt_zero]
  have hn : normalize (⟨0, 0, 0⟩ : Vector ℝ) = ⟨0, 0, 0⟩ := by
    rw [normalize, if_pos h0]
  rw [hn, h0]
  norm_num

-- The direction field is rebuilt on every call (claim C2): there is no
-- view-keyed cache in `init_directions`, and two views within `1e-6` of
-- each other already produce different grids.

/-- A vector with positive first component has positive length. -/
theorem length_pos_of_x_pos (v : Vector ℝ) (hx : 0 < v.x) : 0 < length v := by
  apply Real.sqrt_pos.mpr
  nlinarith

/-- Normalized equality forces proportional components: the y/x ratios of
two vectors with positive x agree when their normalizations agree. -/
theorem normalize_ratio (v w : Vector ℝ) (hv : 0 < v.x) (hw : 0 < w.x)
    (h : normalize v = normalize w) : v.y * w.x = w.y * v.x := by
  have hLv := length_pos_of_x_pos v hv
  have hLw := length_pos_of_x_pos w hw
  rw [normalize, normalize, if_neg (ne_of_gt hLv), if_neg (ne_of_gt hLw),
    Vector.mk.injEq] at h
  obtain ⟨h1, h2, _⟩ := h
  rw [div_eq_div_iff (ne_of_gt hLv) (ne_of_gt hLw)] at h1 h2
  apply mul_right_cancel₀ (ne_of_gt hLw)
  calc v.y * w.x * length w = (v.y * length w) * w.x := by ring
    _ = (w.y * length v) * w.x := by rw [h2]
    _ = w.y * (w.x * length v) := by ring
    _ = w.y * (v.x * length w) := by rw [← h1]
    _ = w.y * v.x * length w := by ring

/-- The corner pixel `(0,0)` of the direction field at yaw zero, in closed
form: the frustum corner algebra of `init_directions` collapsed with the
angle-addition formulas. -/
theorem build_zero_pixel (ψ : ℝ) :
    buildDirections ⟨ψ, 0⟩ 0 0 =
      normalize ⟨Real.cos ψ * Real.cos (1/2) - Real.sin ψ * Real.sin (7/20),
        -(Real.cos ψ * Real.sin (1/2)),
        Real.sin ψ + Real.cos ψ * Real.sin (7/20)⟩ := by
  unfold buildDirections angles_to_vect
  simp only [add_components, sub_components, scale_components]
  norm_num [X_PIXELS, Y_PIXELS, VIEW_HEIGHT, VIEW_WIDTH]
  congr 1
  rw [Vector.mk.injEq]
  refine ⟨?_, ?_, ?_⟩ <;>
    simp [Real.cos_sub, Real.cos_add, Real.sin_sub, Real.sin_add] <;> ring

/-- Claim C2 (amended): `init_directions` recomputes the grid from the view
on every call: its result never depends on the stored cache, and a second
call with the same view returns an equal — freshly rebuilt — grid. -/
theorem claim_C2_amended (r1 r2 : Raycaster) (view : Vector2 ℝ) :
    (init_directions r1 view).1 = (init_directions r2 view).1 ∧
    (init_directions (init_directions r1 view).2 view).1 =
      (init_directions r1 view).1 :=
  ⟨rfl, rfl⟩

/-- Counterexample to C2 as stated: the views `(0, 0)` and `(1e-7, 0)`
differ by less than the claimed `1e-6` tolerance, yet the second call
returns the grid of the new view, which differs from the cached grid
already at pixel `(0, 0)`. -/
theorem claim_C2_counterexample :
    |(1:ℝ)/10000000 - 0| < 1/1000000 ∧ |(0:ℝ) - 0| < 1/1000000 ∧
    (init_directions (init_directions init_raycaster ⟨0, 0⟩).2
        ⟨1/10000000, 0⟩).1 ≠
      (init_directions init_raycaster ⟨0, 0⟩).1 := by
  refine ⟨by rw [sub_zero, abs_of_nonneg (by norm_num)]; norm_num,
    by norm_num, ?_⟩
  intro h
  have h00 : buildDirections ⟨(1:ℝ)/10000000, 0⟩ 0 0 =
      buildDirections ⟨(0:ℝ), 0⟩ 0 0 := congrFun (congrFun h 0) 0
  rw [build_zero_pixel, build_zero_pixel] at h00
  simp only [Real.cos_zero, Real.sin_zero, one_mul, zero_mul, sub_zero,
    zero_add, neg_zero, zero_sub, mul_zero] at h00
  have hεpos : (0:ℝ) < 1/10000000 := by norm_num
  have hce : (9:ℝ)/10 ≤ Real.cos ((1:ℝ)/10000000) := by
    nlinarith [Real.one_sub_sq_div_two_le_cos (x := (1:ℝ)/10000000)]
  have hch : (7:ℝ)/8 ≤ Real.cos ((1:ℝ)/2) := by
    nlinarith [Real.one_sub_sq_div_two_le_cos (x := (1:ℝ)/2)]
  have hsε : Real.sin ((1:ℝ)/10000000) < 1/10000000 := Real.sin_lt hεpos
  have hsε0 : 0 < Real.sin ((1:ℝ)/10000000) :=
    Real.sin_pos_of_pos_of_lt_pi hεpos (by linarith [Real.pi_gt_three])
  have hs7 : Real.sin ((7:ℝ)/20) ≤ 1 := Real.sin_le_one _
  have hs70 : 0 < Real.sin ((7:ℝ)/20) :=
    Real.sin_pos_of_pos_of_lt_pi (by norm_num) (by linarith [Real.pi_gt_three])
  have hsh0 : 0 < Real.sin ((1:ℝ)/2) :=
    Real.sin_pos_of_pos_of_lt_pi (by norm_num) (by linarith [Real.pi_gt_three])
  have hwx : (0:ℝ) < Real.cos (1/2) := by linarith
  have hprod : (63:ℝ)/80 ≤ Real.cos ((1:ℝ)/10000000) * Real.cos ((1:ℝ)/2) := by
    calc (63:ℝ)/80 = (9/10) * (7/8) := by norm_num
      _ ≤ Real.cos ((1:ℝ)/10000000) * Real.cos ((1:ℝ)/2) :=
        mul_le_mul hce hch (by norm_num) (by linarith)
  have hsmall : Real.sin ((1:ℝ)/10000000) * Real.sin ((7:ℝ)/20) ≤
      Real.sin ((1:ℝ)/10000000) :=
    mul_le_of_le_one_right (le_of_lt hsε0) hs7
  have hvx : (0:ℝ) < Real.cos ((1:ℝ)/10000000) * Real.cos (1/2) -
      Real.sin ((1:ℝ)/10000000) * Real.sin (7/20) := by
    have h1 : Real.sin ((1:ℝ)/10000000) * Real.sin (7/20) < 1/10000000 := by
      calc Real.sin ((1:ℝ)/10000000) * Real.sin (7/20) ≤
          Real.sin ((1:ℝ)/10000000) := hsmall
        _ < 1/10000000 := hsε
    linarith
  have hr := normalize_ratio
    ⟨Real.cos ((1:ℝ)/10000000) * Real.cos (1/2) -
        Real.sin ((1:ℝ)/10000000) * Real.sin (7/20),
      -(Real.cos ((1:ℝ)/10000000) * Real.sin (1/2)),
      Real.sin ((1:ℝ)/10000000) + Real.cos ((1:ℝ)/10000000) * Real.sin (7/20)⟩
    ⟨Real.cos (1/2), -(Real.sin (1/2)), Real.sin (7/20)⟩
    hvx hwx h00
  simp only at hr
  nlinarith [hr, mul_pos (mul_pos hsh0 hsε0) hs70]

end MC
